import Mathlib

/-!
# A simple shell: job table, tokenizer, redirection and pipe splitting

Shallow embedding of `simple-shell.c`.

* C strings are lists of characters; a `char *` that may be `NULL` is an
  `Option`.
* The job array `Job jobs[MAX_JOBS]` is a list of `MAX_JOBS` slots together
  with the counter `jobCount`; slots at or after `jobCount` hold stale data.
* The argument array `char *args[20]` is a list of 20 optional tokens; an
  access outside the array is undefined behaviour and makes the embedded
  function return `none`.
* Messages passed to `perror` are collected in a list.
* The system call `waitpid` with `WNOHANG` acts on an explicit record of the children of the
  calling process: a call that finds an exited child returns its pid and reaps it.
* Characters stand for bytes in the ASCII range and are compared through their codes.
* A loop whose counter or bound changes in its body is a function with fuel that returns
  `none` when the fuel runs out; the theorems show that the fuel given is enough.
-/

namespace SimpleShell

/-! ## Strings -/

/-- The terminating byte of a C string. -/
def NUL : Char := Char.ofNat 0

/-- The characters of a C string stored in a buffer: everything before the first `NUL`. -/
def cstr (s : List Char) : List Char := s.takeWhile (fun c => c != NUL)

/-- C `strlen`. -/
def strlen (s : List Char) : Nat := (cstr s).length

/-- C `strcpy(dst, src)`: the characters of `src` and a terminating `NUL` overwrite the
start of `dst`; the rest of `dst` is kept. -/
def strcpy (dst src : List Char) : List Char :=
  cstr src ++ [NUL] ++ dst.drop (strlen src + 1)

/-! ## Job table -/

def MAX_JOBS : Nat := 15

def COMMAND_LENGTH : Nat := 100

/-- The struct `Job`: a process id and a buffer of `COMMAND_LENGTH` characters. -/
structure Job where
  pid : Int
  command : List Char
deriving DecidableEq, Repr

/-- A zeroed slot, as left by `memset(jobs, 0, sizeof(jobs))`. -/
instance : Inhabited Job := ⟨⟨0, List.replicate COMMAND_LENGTH NUL⟩⟩

/-- The value returned by a job-table operation, the job array and counter it leaves, and the
messages it passed to `perror`. -/
structure TableResult where
  ret : Int
  jobs : List Job
  jobCount : Nat
  reported : List String
deriving DecidableEq, Repr

/-- The C expression `jobs[i]`. -/
def slot (jobs : List Job) (i : Nat) : Job := jobs.getD i default

/-- The inner loop of `removeJob`:
`for (int j = i; j < *jobCount - 1; j++) jobs[j] = jobs[j + 1];`
(reached only with `i < *jobCount`, so `*jobCount - 1` is not negative). -/
def shiftDown (jobs : List Job) (jobCount i : Nat) : List Job :=
  (List.range' i (jobCount - 1 - i)).foldl
    (fun js j => js.set j (slot js (j + 1))) jobs

/-- The outer loop of `removeJob` over the indices still to visit. -/
def removeJobFrom (jobs : List Job) (jobCount : Nat) (pid : Int) : List Nat → TableResult
  | [] => ⟨-1, jobs, jobCount, []⟩
  | i :: rest =>
    if (slot jobs i).pid = pid then
      ⟨0, shiftDown jobs jobCount i, jobCount - 1, []⟩
    else removeJobFrom jobs jobCount pid rest

/-- The function `removeJob(jobs, &jobCount, pid)`. -/
def removeJob (jobs : List Job) (jobCount : Nat) (pid : Int) : TableResult :=
  removeJobFrom jobs jobCount pid (List.range jobCount)

/-- The function `addJob(jobs, &jobCount, pid, command)`; `none` when `strlen` is applied
to `NULL`. -/
def addJob (jobs : List Job) (jobCount : Nat) (pid : Int) (command : Option (List Char)) :
    Option TableResult :=
  if jobCount = MAX_JOBS then
    some ⟨-1, jobs, jobCount, ["Max job limit reached\n"]⟩
  else
    match command with
    | none => none
    | some cmd =>
      if strlen cmd ≥ COMMAND_LENGTH then
        some ⟨-1, jobs, jobCount, ["Command entered is too long\n"]⟩
      else
        some ⟨0, jobs.set jobCount ⟨pid, strcpy (slot jobs jobCount).command cmd⟩,
          jobCount + 1, []⟩

/-- The result of `runFg`: the table result and the pid passed to the blocking `waitpid`, if
that call was reached. -/
structure FgResult where
  waited : Option Int
  res : TableResult
deriving DecidableEq, Repr

/-- The function `runFg(jobs, &jobCount, jobNumberStr)`, with the library function `atoi`
as a parameter. -/
def runFg (atoi : List Char → Int) (jobs : List Job) (jobCount : Nat)
    (jobNumberStr : Option (List Char)) : FgResult :=
  match jobNumberStr with
  | none => ⟨none, ⟨-1, jobs, jobCount, ["Job number not specified\n"]⟩⟩
  | some s =>
    let jobNumber := atoi s
    if jobNumber > jobCount ∨ jobNumber < 1 then
      ⟨none, ⟨-1, jobs, jobCount, ["Job number does not exist\n"]⟩⟩
    else
      let pid := (slot jobs (jobNumber - 1).toNat).pid
      let removal := removeJob jobs jobCount pid
      if removal.ret = -1 then
        ⟨some pid, ⟨-1, removal.jobs, removal.jobCount,
          ["Could not find job during removal.\n"]⟩⟩
      else ⟨some pid, ⟨0, removal.jobs, removal.jobCount, []⟩⟩

/-- A child process of the shell as the kernel records it: its pid, its process group, and
whether it has terminated without having been waited for yet. -/
structure Child where
  pid : Int
  pgid : Int
  exited : Bool
deriving DecidableEq, Repr

/-- The kernel's record of the calling process: its process group and its children that
have not been waited for. -/
structure Kernel where
  pgid : Int
  children : List Child
deriving DecidableEq, Repr

/-- Whether the first argument `pid` of `waitpid` selects the child `c`: a positive value
selects the child with that pid, -1 any child, 0 the children in the caller's process group,
a value below -1 the children in the process group `-pid`. -/
def selects (k : Kernel) (pid : Int) (c : Child) : Bool :=
  if pid > 0 then c.pid = pid
  else if pid = -1 then true
  else if pid = 0 then c.pgid = k.pgid
  else c.pgid = -pid

/-- The system call `waitpid(pid, NULL, WNOHANG)`: the value returned and the kernel state
afterwards. When a selected child has exited, the call returns its pid and the child is
reaped, so that a later call no longer finds it; when children are selected but none has
exited the call returns 0; when no child is selected it returns -1. -/
def waitpidNohang (k : Kernel) (pid : Int) : Int × Kernel :=
  match (k.children.filter (selects k pid)).find? (fun c => c.exited) with
  | some c => (c.pid, { k with children := k.children.erase c })
  | none => if (k.children.filter (selects k pid)).isEmpty then (-1, k) else (0, k)

/-- The loop of `checkJobs`, threading the kernel state through the calls of `waitpid`. The
counter `i` is a C `int`: after a removal it is decremented and then incremented by the loop
header. `none` when the fuel runs out. -/
def checkJobsLoop : Nat → Kernel → Int → List Job → Nat → Option (TableResult × Kernel)
  | 0, _, _, _, _ => none
  | fuel + 1, k, i, jobs, jobCount =>
    if i < (jobCount : Int) then
      if (waitpidNohang k (slot jobs i.toNat).pid).1 > 0 then
        let removal := removeJob jobs jobCount (slot jobs i.toNat).pid
        if removal.ret = -1 then
          some (⟨-1, removal.jobs, removal.jobCount,
            ["Could not find job during removal.\n"]⟩,
            (waitpidNohang k (slot jobs i.toNat).pid).2)
        else
          checkJobsLoop fuel (waitpidNohang k (slot jobs i.toNat).pid).2 ((i - 1) + 1)
            removal.jobs removal.jobCount
      else checkJobsLoop fuel (waitpidNohang k (slot jobs i.toNat).pid).2 (i + 1) jobs jobCount
    else some (⟨0, jobs, jobCount, []⟩, k)

/-- The function `checkJobs(jobs, &jobCount)`: the loop started at `i = 0`, run for at most
`jobCount + 1` tests of the loop condition. -/
def checkJobs (k : Kernel) (jobs : List Job) (jobCount : Nat) :
    Option (TableResult × Kernel) :=
  checkJobsLoop (jobCount + 1) k 0 jobs jobCount

/-- The first `n` slots of the job array: the entries of the table. -/
def entries (jobs : List Job) (n : Nat) : List Job := jobs.take n

/-! ## Tokenizer -/

/-- The outcome of `getcmd`: the process exits, or the call returns with the background flag,
the stores `args[i] = token` it performed, in order, and the count `i` it returns; `diverged`
when the loop fuel runs out. -/
inductive Tokenized where
  | exited (status : Int)
  | returned (background : Int) (stores : List (Nat × List Char)) (count : Nat)
  | diverged
deriving DecidableEq, Repr

/-- The effect of `if ((loc = index(line, '&')) != NULL) *loc = ' ';` on the line. -/
def blankFirstAmpersand : List Char → List Char
  | [] => []
  | c :: cs => if c = '&' then ' ' :: cs else c :: blankFirstAmpersand cs

/-- Membership in the delimiter string `" \t\n"` of the `strsep` call. -/
def isDelim (c : Char) : Bool := c = ' ' || c = '\t' || c = '\n'

/-- C `strsep(&line, " \t\n")` on a non-`NULL` line: the token up to the first delimiter,
and the new value of `line` (`NULL` when no delimiter was found). -/
def strsep : List Char → List Char × Option (List Char)
  | [] => ([], none)
  | c :: cs => if isDelim c then ([], some cs) else (c :: (strsep cs).1, (strsep cs).2)

/-- The loop `for (j = 0; j < strlen(token); j++) if (token[j] <= 32) token[j] = 0;`:
the first character that is at most 32 becomes the end of the token. (Codes up to 127; where
`char` is signed the C comparison also holds for bytes of 128 and above.) -/
def trimControl : List Char → List Char
  | [] => []
  | c :: cs => if c.toNat ≤ 32 then [] else c :: trimControl cs

/-- The loop `while ((token = strsep(&line, " \t\n")) != NULL)` of `getcmd`; the second
argument is `line` (`none` for `NULL`), the third is `i`. `none` when the fuel runs out. -/
def getcmdLoop : Nat → Option (List Char) → Nat → List (Nat × List Char) →
    Option (Nat × List (Nat × List Char))
  | _, none, i, stores => some (i, stores)
  | 0, some _, _, _ => none
  | fuel + 1, some line, i, stores =>
    let token := trimControl (strsep line).1
    if strlen token > 0 then
      getcmdLoop fuel (strsep line).2 (i + 1) (stores ++ [(i, token)])
    else getcmdLoop fuel (strsep line).2 i stores

/-- The function `getcmd(prompt, args, &background)` when `getline` reads `line` (the empty
list stands for end of input or a read failure). The string functions see the line up to its first
`NUL`. -/
def getcmd (line : List Char) : Tokenized :=
  if line.length = 0 then .exited (-1)
  else
    let background : Int := if '&' ∈ cstr line then 1 else 0
    match getcmdLoop (line.length + 1) (some (blankFirstAmpersand (cstr line))) 0 [] with
    | none => .diverged
    | some (i, stores) => .returned background stores i

/-! ## Argument array -/

/-- The array `char *args[20]`: 20 slots, `none` for a `NULL` pointer. -/
abbrev Args := List (Option (List Char))

/-- The array after `memset(args, 0, sizeof(args))`. -/
def zeroArgs : Args := List.replicate 20 none

/-- The stores of `getcmd` applied to the array; `none` when a store falls outside it. -/
def storeArgs : Args → List (Nat × List Char) → Option Args
  | args, [] => some args
  | args, (i, token) :: rest =>
    if i < args.length then storeArgs (args.set i (some token)) rest else none

/-- The zeroed array with the given tokens stored from index 0 on. -/
def mkArgs (toks : List (List Char)) : Args :=
  toks.map some ++ List.replicate (20 - toks.length) none

/-- The maximal runs of characters that are not separators. -/
def wordsOf (sep : Char → Bool) (line : List Char) : List (List Char) :=
  (line.splitOnP sep).filter (fun w => w ≠ [])

/-- The string of `n` copies of the word `a`, each followed by a space, and a newline. -/
def manyWords (n : Nat) : List Char :=
  (List.replicate n ['a', ' ']).flatten ++ ['\n']

/-! ## Redirection -/

/-- The loop of `removeRedirection`: `for (i = index; args[i]; i++) args[i] = args[i + 2];`.
`none` when `args[i]` or `args[i + 2]` lies outside the array (the fuel, one more than the
size of the array, cannot run out before that). -/
def removeRedirectionLoop : Nat → Args → Nat → Option Args
  | 0, _, _ => none
  | fuel + 1, args, i =>
    match args[i]? with
    | none => none
    | some none => some args
    | some (some _) =>
      match args[i + 2]? with
      | none => none
      | some v => removeRedirectionLoop fuel (args.set i v) (i + 1)

/-- The function `removeRedirection(args, index)`. -/
def removeRedirection (args : Args) (index : Nat) : Option Args :=
  removeRedirectionLoop (args.length + 1) args index

/-- The loop of `outputRedirectionExists`. The result is `result` (`none` for `NULL`,
otherwise `result[0]` and `result[1]`) and the array afterwards. -/
def outputRedirectionLoop :
    Nat → Args → Nat → Option (Option (List Char × Option (List Char)) × Args)
  | 0, _, _ => none
  | fuel + 1, args, i =>
    match args[i]? with
    | none => none
    | some none => some (none, args)
    | some (some tok) =>
      if tok = ">".toList ∨ tok = ">>".toList then
        match args[i + 1]? with
        | none => none
        | some file => (removeRedirection args i).map (fun a => (some (tok, file), a))
      else outputRedirectionLoop fuel args (i + 1)

/-- The function `outputRedirectionExists(args)`. -/
def outputRedirectionExists (args : Args) :
    Option (Option (List Char × Option (List Char)) × Args) :=
  outputRedirectionLoop (args.length + 1) args 0

/-- The loop of `inputRedirectionExists`. The result is the pointer returned (`none` for
`NULL`) and the array afterwards. -/
def inputRedirectionLoop : Nat → Args → Nat → Option (Option (List Char) × Args)
  | 0, _, _ => none
  | fuel + 1, args, i =>
    match args[i]? with
    | none => none
    | some none => some (none, args)
    | some (some tok) =>
      if tok = "<".toList then
        match args[i + 1]? with
        | none => none
        | some result => (removeRedirection args i).map (fun a => (result, a))
      else inputRedirectionLoop fuel args (i + 1)

/-- The function `inputRedirectionExists(args)`. -/
def inputRedirectionExists (args : Args) : Option (Option (List Char) × Args) :=
  inputRedirectionLoop (args.length + 1) args 0

/-! ## Pipe -/

/-- The loop of `pipeExists`; the result is the pointer returned. -/
def pipeExistsLoop : Nat → Args → Nat → Option (Option (List Char))
  | 0, _, _ => none
  | fuel + 1, args, i =>
    match args[i]? with
    | none => none
    | some none => some none
    | some (some tok) =>
      if tok = "|".toList then args[i + 1]? else pipeExistsLoop fuel args (i + 1)

/-- The function `pipeExists(args)`. -/
def pipeExists (args : Args) : Option (Option (List Char)) :=
  pipeExistsLoop (args.length + 1) args 0

/-- The loop `for (i = 0; strcmp(args[i], "|") != 0; i++) left_args[i] = args[i];` of the
first child in `handlePipe`. `none` when `args[i]` is `NULL` or outside the array. -/
def leftArgsLoop : Nat → Args → Nat → Args → Option Args
  | 0, _, _, _ => none
  | fuel + 1, args, i, left_args =>
    match args[i]? with
    | none => none
    | some none => none
    | some (some tok) =>
      if tok ≠ "|".toList then
        if i < left_args.length then
          leftArgsLoop fuel args (i + 1) (left_args.set i (some tok))
        else none
      else some left_args

/-- The array `left_args` that the first child of `handlePipe` passes to `execvp`. -/
def handlePipeLeftArgs (args : Args) : Option Args :=
  leftArgsLoop (args.length + 1) args 0 zeroArgs

/-- The loop `for (; strcmp(args[i], "|") != 0; i++) {}` of the second child; the result is
the index of the pipe token. -/
def skipLeftLoop : Nat → Args → Nat → Option Nat
  | 0, _, _ => none
  | fuel + 1, args, i =>
    match args[i]? with
    | none => none
    | some none => none
    | some (some tok) => if tok ≠ "|".toList then skipLeftLoop fuel args (i + 1) else some i

/-- The loop `for (; args[i]; i++, j++) right_args[j] = args[i];` of the second child. -/
def rightArgsLoop : Nat → Args → Nat → Nat → Args → Option Args
  | 0, _, _, _, _ => none
  | fuel + 1, args, i, j, right_args =>
    match args[i]? with
    | none => none
    | some none => some right_args
    | some (some tok) =>
      if j < right_args.length then
        rightArgsLoop fuel args (i + 1) (j + 1) (right_args.set j (some tok))
      else none

/-- The array `right_args` that the second child of `handlePipe` passes to `execvp`. -/
def handlePipeRightArgs (args : Args) : Option Args :=
  match skipLeftLoop (args.length + 1) args 0 with
  | none => none
  | some i => rightArgsLoop (args.length + 1) args (i + 1) 0 zeroArgs

/-- The digits at the start of a string, read as a decimal number added to `acc`. -/
def readDigits : Nat → List Char → Nat
  | acc, [] => acc
  | acc, c :: cs => if c.isDigit then readDigits (acc * 10 + (c.toNat - 48)) cs else acc

/-- A reading of the C library function `atoi`, for numbers within the range of `int`:
leading white space (space and the codes 9 to 13), an optional sign, then decimal digits. -/
def decimalAtoi (s : List Char) : Int :=
  match s.dropWhile (fun c => c = ' ' || (9 ≤ c.toNat && c.toNat ≤ 13)) with
  | '-' :: cs => - (readDigits 0 cs : Int)
  | '+' :: cs => (readDigits 0 cs : Int)
  | cs => (readDigits 0 cs : Int)

/-! ## The main loop -/

/-- What the operating system and the C library answer during one iteration of the loop of
`main`. -/
structure Sys where
  /-- The library function `atoi`. -/
  atoi : List Char → Int
  /-- The kernel's record of the children of the process at the start of the iteration. -/
  kernel : Kernel
  /-- Whether one of the two `dup` calls of `main` returns a negative value. -/
  dupFails : Bool
  /-- Whether `open` on the given path returns a negative value. -/
  openFails : Option (List Char) → Bool
  /-- The value returned by `fork` in `main`. -/
  forkResult : Int
  /-- Whether `execvp` with the given argument array returns. -/
  execFails : Args → Bool
  /-- Whether `pipe(fd)` in `handlePipe` returns a negative value. -/
  pipeFails : Bool
  /-- The value returned by the first `fork` of `handlePipe`. -/
  pipeFork1 : Int
  /-- The value returned by the second `fork` of `handlePipe`. -/
  pipeFork2 : Int

/-- How a call of `handlePipe` ends for the process that made it. -/
inductive PipeOutcome where
  | returns
  | exits (status : Int) (reported : List String)
  | execs (argv : Args)
  | undefined
deriving DecidableEq, Repr

/-- The function `handlePipe(args)`. -/
def handlePipe (sys : Sys) (args : Args) : PipeOutcome :=
  if sys.pipeFails then .exits (-1) ["Error while creating pipe"]
  else if sys.pipeFork1 = 0 then
    match handlePipeLeftArgs args with
    | none => .undefined
    | some left_args =>
      if sys.execFails left_args then .exits (-1) ["Failed to run first command of pipe."]
      else .execs left_args
  else if sys.pipeFork2 = 0 then
    match handlePipeRightArgs args with
    | none => .undefined
    | some right_args =>
      if sys.execFails right_args then .exits (-1) ["execvp"] else .execs right_args
  else .returns

/-- How one iteration of the loop of `main` ends for the process that runs it: the process
exits, its image is replaced by `execvp`, it goes on to the next iteration (reap, read a
line, dispatch) with the given job table, or its behaviour is undefined. -/
inductive Outcome where
  | exits (status : Int) (reported : List String)
  | execs (argv : Args)
  | continues (jobs : List Job) (jobCount : Nat) (reported : List String)
  | undefined
deriving DecidableEq, Repr

/-- The loop `for (int i = 1; args[i]; i++)` of `runEcho`: the tokens printed. -/
def runEchoLoop : Nat → Args → Nat → Option (List (List Char))
  | 0, _, _ => none
  | fuel + 1, args, i =>
    match args[i]? with
    | none => none
    | some none => some []
    | some (some tok) => (runEchoLoop fuel args (i + 1)).map (fun l => tok :: l)

/-- The function `runEcho(args)`. -/
def runEcho (args : Args) : Option (List (List Char)) :=
  runEchoLoop (args.length + 1) args 1

/-- The branch `pid == 0` of `main` after `fork`, and the code that follows it up to the end
of the loop body. After `handlePipe` returns there is no `exit`: control leaves the `if`,
the standard streams are restored, and the loop goes on. -/
def childBranch (sys : Sys) (jobs : List Job) (jobCount : Nat) (reported : List String)
    (args : Args) (pipe_command : Option (List Char)) : Outcome :=
  if pipe_command.isSome then
    match handlePipe sys args with
    | .returns => .continues jobs jobCount reported
    | .exits status msgs => .exits status (reported ++ msgs)
    | .execs argv => .execs argv
    | .undefined => .undefined
  else if sys.execFails args then .exits 1 (reported ++ ["Command execution failed"])
  else .execs args

/-- The branch `pid != 0` of `main` after `fork`, and the code that follows it up to the end
of the loop body. With `bg == 0` the parent waits for the child. -/
def parentBranch (jobs : List Job) (jobCount : Nat) (reported : List String)
    (args : Args) (bg : Int) (pid : Int) : Outcome :=
  if bg = 0 then .continues jobs jobCount reported
  else
    match args[0]? with
    | none => .undefined
    | some command =>
      match addJob jobs jobCount pid command with
      | none => .undefined
      | some addingJob =>
        if addingJob.ret = -1 then
          .exits (-1) (reported ++ addingJob.reported ++ ["Error while adding job"])
        else .continues addingJob.jobs addingJob.jobCount (reported ++ addingJob.reported)

/-- The last branch of the dispatch in `main`: a command that is not built in. -/
def launch (sys : Sys) (jobs : List Job) (jobCount : Nat) (reported : List String)
    (args : Args) (bg : Int) : Outcome :=
  match pipeExists args with
  | none => .undefined
  | some pipe_command =>
    match outputRedirectionExists args with
    | none => .undefined
    | some (outputRedirection, args1) =>
      match inputRedirectionExists args1 with
      | none => .undefined
      | some (inputRedirection, args2) =>
        if (outputRedirection.isSome ∨ inputRedirection.isSome) ∧ sys.dupFails then
          .exits (-1) (reported ++ ["Error while saving default input and output"])
        else if outputRedirection.isSome ∧
            sys.openFails (outputRedirection.bind (fun r => r.2)) then
          .exits (-1) (reported ++ ["Error while opening or creating file."])
        else if inputRedirection.isSome ∧ sys.openFails inputRedirection then
          .exits (-1) (reported ++ ["Error while opening file."])
        else if sys.forkResult = 0 then
          childBranch sys jobs jobCount reported args2 pipe_command
        else parentBranch jobs jobCount reported args2 bg sys.forkResult

/-- The dispatch on `args[0]` in `main`, reached with `cnt != 0`. -/
def dispatch (sys : Sys) (jobs : List Job) (jobCount : Nat) (reported : List String)
    (args : Args) (bg : Int) : Outcome :=
  match args[0]? with
  | none => .undefined
  | some none => .undefined
  | some (some cmd) =>
    if cmd = "exit".toList then .exits 0 reported
    else if cmd = "pwd".toList then .continues jobs jobCount reported
    else if cmd = "cd".toList then
      match args[1]? with
      | none => .undefined
      | some _ => .continues jobs jobCount reported
    else if cmd = "echo".toList then
      match runEcho args with
      | none => .undefined
      | some _ => .continues jobs jobCount reported
    else if cmd = "jobs".toList then .continues jobs jobCount reported
    else if cmd = "fg".toList then
      match args[1]? with
      | none => .undefined
      | some jobNumberStr =>
        let fg := runFg sys.atoi jobs jobCount jobNumberStr
        .continues fg.res.jobs fg.res.jobCount (reported ++ fg.res.reported)
    else launch sys jobs jobCount reported args bg

/-- One iteration of the loop of `main` when `getline` reads `line`. The outcome describes
the shell process; the kernel state left by the calls of `waitpid` is not part of it. -/
def mainStep (sys : Sys) (jobs : List Job) (jobCount : Nat) (line : List Char) : Outcome :=
  match checkJobs sys.kernel jobs jobCount with
  | none => .undefined
  | some (checked, _) =>
    match getcmd line with
    | .exited status => .exits status checked.reported
    | .diverged => .undefined
    | .returned bg stores cnt =>
      match storeArgs zeroArgs stores with
      | none => .undefined
      | some args =>
        if cnt = 0 then .continues checked.jobs checked.jobCount checked.reported
        else dispatch sys checked.jobs checked.jobCount checked.reported args bg

/-- A kernel state in which the children are the processes 1 to 15, all of them running. -/
def quietKernel : Kernel :=
  ⟨500, (List.range 15).map (fun i => ⟨(i : Int) + 1, 500, false⟩)⟩

/-- A system in which no child has exited, every call succeeds, and the three `fork` calls
return the given values. -/
def quietSys (forkResult pipeFork1 pipeFork2 : Int) : Sys where
  atoi := decimalAtoi
  kernel := quietKernel
  dupFails := false
  openFails := fun _ => false
  forkResult := forkResult
  execFails := fun _ => false
  pipeFails := false
  pipeFork1 := pipeFork1
  pipeFork2 := pipeFork2

/-- A job array with all fifteen slots in use, by the processes 1 to 15. -/
def fullJobs : List Job :=
  (List.range 15).map
    (fun i => ⟨(i : Int) + 1, strcpy (List.replicate COMMAND_LENGTH NUL) "sleep".toList⟩)

/-- The tokens of a command line given as strings. -/
def words (l : List String) : List (List Char) := l.map String.toList

/-- The tokens that the remaining calls of `strsep` yield, empty ones included. -/
def piecesOf : Option (List Char) → List (List Char)
  | none => []
  | some l => l.splitOnP isDelim

/-- The tokens that the loop of `getcmd` stores from the given value of `line` on. -/
def storedFrom (line : Option (List Char)) : List (List Char) :=
  ((piecesOf line).map trimControl).filter (fun w => w ≠ [])

/-- The characters the body of an input line is made of: space, tab and printable ASCII. -/
def lineChar (c : Char) : Bool := c = ' ' || c = '\t' || (33 ≤ c.toNat && c.toNat ≤ 126)

/-- A job array whose first three slots are in use. -/
def sampleJobs : List Job :=
  [⟨101, strcpy (List.replicate COMMAND_LENGTH NUL) "sleep".toList⟩,
   ⟨102, strcpy (List.replicate COMMAND_LENGTH NUL) "cat".toList⟩,
   ⟨103, strcpy (List.replicate COMMAND_LENGTH NUL) "make".toList⟩]
  ++ List.replicate 12 default

/-- A job array with two entries that carry the same pid, as left by two background
commands whose `fork` failed and returned -1. -/
def dupJobs : List Job :=
  [⟨-1, strcpy (List.replicate COMMAND_LENGTH NUL) "a".toList⟩,
   ⟨-1, strcpy (List.replicate COMMAND_LENGTH NUL) "b".toList⟩]
  ++ List.replicate 13 default

/-! ## Facts about the job table -/

theorem shift_fold_getElem? (m : Nat) : ∀ (i : Nat) (jobs : List Job) (k : Nat),
    i + m < jobs.length →
    ((List.range' i m).foldl (fun js j => js.set j (slot js (j + 1))) jobs)[k]?
      = if i ≤ k ∧ k < i + m then jobs[k + 1]? else jobs[k]? := by
  induction m with
  | zero => intro i jobs k _; rw [if_neg (by omega)]; rfl
  | succ m ih =>
    intro i jobs k h
    rw [List.range'_succ, List.foldl_cons, ih (i + 1) _ k (by simp; omega)]
    have hget : slot jobs (i + 1) = jobs[i + 1] := by
      rw [slot, List.getD_eq_getElem?_getD, List.getElem?_eq_getElem (by omega)]; rfl
    by_cases h1 : i + 1 ≤ k ∧ k < i + 1 + m
    · rw [if_pos h1, if_pos (by omega), List.getElem?_set_ne (by omega)]
    · rw [if_neg h1]
      by_cases h2 : k = i
      · subst h2
        rw [if_pos (by omega), List.getElem?_set_self (by omega), hget,
          List.getElem?_eq_getElem (by omega)]
      · rw [List.getElem?_set_ne (by omega), if_neg (by omega)]

theorem shiftDown_getElem? (jobs : List Job) (n i k : Nat) (hn : n ≤ jobs.length)
    (hi : i < n) :
    (shiftDown jobs n i)[k]? = if i ≤ k ∧ k < n - 1 then jobs[k + 1]? else jobs[k]? := by
  unfold shiftDown
  rw [shift_fold_getElem? _ _ _ _ (by omega)]
  have : i + (n - 1 - i) = n - 1 := by omega
  rw [this]

theorem slot_eq_of_getElem? {jobs jobs2 : List Job} {i j : Nat}
    (h : jobs[i]? = jobs2[j]?) : slot jobs i = slot jobs2 j := by
  simp [slot, h]

theorem removeJobFrom_none (jobs : List Job) (n : Nat) (pid : Int) (l : List Nat)
    (h : ∀ j ∈ l, (slot jobs j).pid ≠ pid) :
    removeJobFrom jobs n pid l = ⟨-1, jobs, n, []⟩ := by
  induction l with
  | nil => rfl
  | cons i rest ih =>
    rw [removeJobFrom, if_neg (h i (List.mem_cons_self _ _))]
    exact ih (fun j hj => h j (List.mem_cons_of_mem _ hj))

theorem removeJobFrom_first (jobs : List Job) (n : Nat) (pid : Int) (l1 l2 : List Nat)
    (k : Nat) (h : ∀ j ∈ l1, (slot jobs j).pid ≠ pid) (hk : (slot jobs k).pid = pid) :
    removeJobFrom jobs n pid (l1 ++ k :: l2) = ⟨0, shiftDown jobs n k, n - 1, []⟩ := by
  induction l1 with
  | nil => rw [List.nil_append, removeJobFrom, if_pos hk]
  | cons i rest ih =>
    rw [List.cons_append, removeJobFrom, if_neg (h i (List.mem_cons_self _ _))]
    exact ih (fun j hj => h j (List.mem_cons_of_mem _ hj))

theorem removeJob_not_found (jobs : List Job) (n : Nat) (pid : Int)
    (h : ∀ j < n, (slot jobs j).pid ≠ pid) :
    removeJob jobs n pid = ⟨-1, jobs, n, []⟩ :=
  removeJobFrom_none jobs n pid _ (fun j hj => h j (List.mem_range.mp hj))

theorem removeJob_found (jobs : List Job) (n : Nat) (pid : Int) (k : Nat) (hk : k < n)
    (hpid : (slot jobs k).pid = pid) (hfirst : ∀ j < k, (slot jobs j).pid ≠ pid) :
    removeJob jobs n pid = ⟨0, shiftDown jobs n k, n - 1, []⟩ := by
  have hsplit : List.range n = List.range k ++ k :: List.range' (k + 1) (n - (k + 1)) := by
    have h1 : n = (n - k) + k := by omega
    conv_lhs => rw [h1]
    rw [List.range_eq_range', List.range_eq_range', ← List.range'_append 0 k (n - k) 1]
    have h2 : n - k = (n - (k + 1)) + 1 := by omega
    rw [h2, List.range'_succ]
    simp
  rw [removeJob, hsplit]
  exact removeJobFrom_first jobs n pid _ _ k (fun j hj => hfirst j (List.mem_range.mp hj)) hpid

theorem entries_shiftDown (jobs : List Job) (n k : Nat) (hn : n ≤ jobs.length) (hk : k < n) :
    entries (shiftDown jobs n k) (n - 1) = (entries jobs n).eraseIdx k := by
  apply List.ext_getElem?
  intro j
  rw [entries, entries, List.getElem?_take, List.getElem?_eraseIdx, List.getElem?_take,
    List.getElem?_take, shiftDown_getElem? jobs n k j hn hk]
  by_cases h1 : j < n - 1
  · by_cases h2 : j < k
    · rw [if_pos h1, if_neg (by omega), if_pos h2, if_pos (by omega)]
    · rw [if_pos h1, if_pos (by omega), if_neg h2, if_pos (by omega)]
  · rw [if_neg h1]
    by_cases h2 : j < k
    · omega
    · rw [if_neg h2, if_neg (by omega)]

theorem cstr_append_NUL (s rest : List Char) : cstr (cstr s ++ [NUL] ++ rest) = cstr s := by
  unfold cstr
  induction s with
  | nil => simp [List.takeWhile]
  | cons c cs ih =>
    by_cases hc : (c != NUL) = true
    · simp only [List.takeWhile_cons, hc, if_true, List.cons_append]
      simpa using ih
    · simp [List.takeWhile_cons, hc, List.takeWhile]

theorem cstr_of_no_NUL (s : List Char) (h : NUL ∉ s) : cstr s = s := by
  unfold cstr
  rw [List.takeWhile_eq_self_iff]
  intro c hc
  simp only [bne_iff_ne, ne_eq]
  intro hcn
  exact h (hcn ▸ hc)

theorem cstr_length_le (s : List Char) : (cstr s).length ≤ s.length := by
  unfold cstr
  induction s with
  | nil => simp
  | cons c cs ih =>
    rw [List.takeWhile_cons]
    split
    · simp; omega
    · simp

theorem strcpy_length (dst src : List Char) (h : strlen src < dst.length) :
    (strcpy dst src).length = dst.length := by
  unfold strcpy
  unfold strlen at *
  simp only [List.length_append, List.length_cons, List.length_nil, List.length_drop]
  omega

/-- C1: `removeJob` erases the first entry with the given pid. On a table of `n ≤ 15` entries,
if no entry has the pid it returns -1 and leaves the array and the count as they were;
otherwise, with `k` the (0-based) index of the first entry with the pid, it returns 0, the
count becomes `n - 1`, the entries before `k` are unchanged and every entry from `k` to
`n - 2` is the one that was one place further, so that the entries are the old ones with
the one at index `k` erased. -/
theorem removeJob_erases_first_match (jobs : List Job) (n : Nat) (pid : Int)
    (hlen : jobs.length = MAX_JOBS) (hn : n ≤ MAX_JOBS) :
    ((∀ j < n, (slot jobs j).pid ≠ pid) → removeJob jobs n pid = ⟨-1, jobs, n, []⟩) ∧
    (∀ k < n, (slot jobs k).pid = pid → (∀ j < k, (slot jobs j).pid ≠ pid) →
      (removeJob jobs n pid).ret = 0 ∧
      (removeJob jobs n pid).jobCount = n - 1 ∧
      (∀ j < k, slot (removeJob jobs n pid).jobs j = slot jobs j) ∧
      (∀ j, k ≤ j → j < n - 1 → slot (removeJob jobs n pid).jobs j = slot jobs (j + 1)) ∧
      entries (removeJob jobs n pid).jobs (n - 1) = (entries jobs n).eraseIdx k) := by
  refine ⟨removeJob_not_found jobs n pid, ?_⟩
  intro k hk hpid hfirst
  have hle : n ≤ jobs.length := by omega
  rw [removeJob_found jobs n pid k hk hpid hfirst]
  refine ⟨rfl, rfl, ?_, ?_, entries_shiftDown jobs n k hle hk⟩
  · intro j hj
    apply slot_eq_of_getElem?
    rw [shiftDown_getElem? jobs n k j hle hk, if_neg (by omega)]
  · intro j hkj hjn
    apply slot_eq_of_getElem?
    rw [shiftDown_getElem? jobs n k j hle hk, if_pos ⟨hkj, hjn⟩]

/-- Witness for C1: removing pid 102 from the sample table of three jobs. -/
theorem removeJob_erases_first_match_witness :
    (removeJob sampleJobs 3 102).ret = 0 ∧
    (removeJob sampleJobs 3 102).jobCount = 3 - 1 ∧
    (∀ j < 1, slot (removeJob sampleJobs 3 102).jobs j = slot sampleJobs j) ∧
    (∀ j, 1 ≤ j → j < 3 - 1 →
      slot (removeJob sampleJobs 3 102).jobs j = slot sampleJobs (j + 1)) ∧
    entries (removeJob sampleJobs 3 102).jobs (3 - 1) = (entries sampleJobs 3).eraseIdx 1 :=
  (removeJob_erases_first_match sampleJobs 3 102 (by decide) (by decide)).2 1 (by decide)
    (by decide) (by decide)

/-- C2: `addJob` is all-or-nothing. On a table of `n ≤ 15` entries, when `n = 15` or
`strlen(label) ≥ 100` it returns -1 and leaves the array and the count as they were;
otherwise it returns 0, the count becomes `n + 1`, the entries before index `n` are
unchanged, and the entry at index `n` has the given pid and holds the label as its C
string, inside a buffer that keeps its size. -/
theorem addJob_all_or_nothing (jobs : List Job) (n : Nat) (pid : Int) (label : List Char)
    (hlen : jobs.length = MAX_JOBS) (hn : n ≤ MAX_JOBS) :
    ((n = MAX_JOBS ∨ strlen label ≥ COMMAND_LENGTH) →
      ∃ msg, addJob jobs n pid (some label) = some ⟨-1, jobs, n, [msg]⟩) ∧
    (¬ (n = MAX_JOBS ∨ strlen label ≥ COMMAND_LENGTH) →
      ∃ r, addJob jobs n pid (some label) = some r ∧ r.ret = 0 ∧ r.jobCount = n + 1 ∧
        r.jobs.length = MAX_JOBS ∧
        (∀ j < n, slot r.jobs j = slot jobs j) ∧
        (slot r.jobs n).pid = pid ∧
        cstr (slot r.jobs n).command = cstr label ∧
        (NUL ∉ label → cstr (slot r.jobs n).command = label) ∧
        ((slot jobs n).command.length = COMMAND_LENGTH →
          (slot r.jobs n).command.length = COMMAND_LENGTH)) := by
  constructor
  · intro h
    unfold addJob
    by_cases h1 : n = MAX_JOBS
    · exact ⟨"Max job limit reached\n", by rw [if_pos h1]⟩
    · have h2 : strlen label ≥ COMMAND_LENGTH := h.resolve_left h1
      exact ⟨"Command entered is too long\n", by rw [if_neg h1]; simp only [if_pos h2]⟩
  · intro h
    have h1 : ¬ n = MAX_JOBS := fun e => h (Or.inl e)
    have h2 : ¬ strlen label ≥ COMMAND_LENGTH := fun e => h (Or.inr e)
    have hlt : n < jobs.length := by omega
    refine ⟨⟨0, jobs.set n ⟨pid, strcpy (slot jobs n).command label⟩, n + 1, []⟩,
      by unfold addJob; rw [if_neg h1]; simp only [if_neg h2], rfl, rfl, ?_, ?_, ?_⟩
    · simpa using hlen
    · intro j hj
      apply slot_eq_of_getElem?
      rw [List.getElem?_set_ne (by omega)]
    · have hs : slot (jobs.set n ⟨pid, strcpy (slot jobs n).command label⟩) n
          = ⟨pid, strcpy (slot jobs n).command label⟩ := by
        simp [slot, List.getElem?_set_self hlt]
      simp only [hs]
      have hc : cstr (strcpy (slot jobs n).command label) = cstr label := by
        unfold strcpy; exact cstr_append_NUL _ _
      refine ⟨trivial, hc, fun hnul => by rw [hc, cstr_of_no_NUL _ hnul], fun hb => ?_⟩
      rw [strcpy_length _ _ (by rw [hb]; omega), hb]

/-- Witness for C2: a fourth job is appended to the sample table of three jobs. -/
theorem addJob_all_or_nothing_witness :
    ∃ r, addJob sampleJobs 3 104 (some "vim".toList) = some r ∧ r.ret = 0 ∧
      r.jobCount = 3 + 1 ∧ r.jobs.length = MAX_JOBS ∧
      (∀ j < 3, slot r.jobs j = slot sampleJobs j) ∧
      (slot r.jobs 3).pid = 104 ∧
      cstr (slot r.jobs 3).command = cstr "vim".toList ∧
      (NUL ∉ "vim".toList → cstr (slot r.jobs 3).command = "vim".toList) ∧
      ((slot sampleJobs 3).command.length = COMMAND_LENGTH →
        (slot r.jobs 3).command.length = COMMAND_LENGTH) :=
  (addJob_all_or_nothing sampleJobs 3 104 "vim".toList (by decide) (by decide)).2 (by decide)

/-- C4 (amended): `runFg` on a table of `n ≤ 15` entries returns -1 and leaves the array and
the count as they were when the argument is missing or `atoi` of it is outside `[1, n]`.
Otherwise, for position `p` in `[1, n]`, it waits on the pid stored at position `p`, returns
0, the count becomes `n - 1`, and the entry removed is the first one whose pid equals that
pid (index `k`); when no earlier entry has that pid this is the entry at position `p`. -/
theorem runFg_removes_first_with_pid (atoi : List Char → Int) (jobs : List Job) (n : Nat)
    (hlen : jobs.length = MAX_JOBS) (hn : n ≤ MAX_JOBS) :
    (∃ msg, runFg atoi jobs n none = ⟨none, ⟨-1, jobs, n, [msg]⟩⟩) ∧
    (∀ s, (atoi s < 1 ∨ atoi s > n) →
      ∃ msg, runFg atoi jobs n (some s) = ⟨none, ⟨-1, jobs, n, [msg]⟩⟩) ∧
    (∀ (s : List Char) (p k : Nat), atoi s = (p : Int) → 1 ≤ p → p ≤ n → k ≤ p - 1 →
      (slot jobs k).pid = (slot jobs (p - 1)).pid →
      (∀ j < k, (slot jobs j).pid ≠ (slot jobs (p - 1)).pid) →
      (runFg atoi jobs n (some s)).waited = some (slot jobs (p - 1)).pid ∧
      (runFg atoi jobs n (some s)).res.ret = 0 ∧
      (runFg atoi jobs n (some s)).res.jobCount = n - 1 ∧
      entries (runFg atoi jobs n (some s)).res.jobs (n - 1) = (entries jobs n).eraseIdx k) ∧
    (∀ (s : List Char) (p : Nat), atoi s = (p : Int) → 1 ≤ p → p ≤ n →
      (∀ j < p - 1, (slot jobs j).pid ≠ (slot jobs (p - 1)).pid) →
      (runFg atoi jobs n (some s)).res.ret = 0 ∧
      (runFg atoi jobs n (some s)).res.jobCount = n - 1 ∧
      entries (runFg atoi jobs n (some s)).res.jobs (n - 1)
        = (entries jobs n).eraseIdx (p - 1)) := by
  have hle : n ≤ jobs.length := by omega
  have key : ∀ (s : List Char) (p k : Nat), atoi s = (p : Int) → 1 ≤ p → p ≤ n →
      k ≤ p - 1 →
      (slot jobs k).pid = (slot jobs (p - 1)).pid →
      (∀ j < k, (slot jobs j).pid ≠ (slot jobs (p - 1)).pid) →
      runFg atoi jobs n (some s)
        = ⟨some (slot jobs (p - 1)).pid, ⟨0, shiftDown jobs n k, n - 1, []⟩⟩ := by
    intro s p k hs hp1 hpn hk hpid hfirst
    have hidx : ((p : Int) - 1).toNat = p - 1 := by omega
    unfold runFg
    simp only [hs]
    rw [if_neg (by omega), hidx, removeJob_found jobs n _ k (by omega) hpid hfirst]
    rw [if_neg (by simp)]
  refine ⟨⟨_, rfl⟩, ?_, ?_, ?_⟩
  · intro s hs
    refine ⟨"Job number does not exist\n", ?_⟩
    unfold runFg
    simp only
    rw [if_pos (by omega)]
  · intro s p k hs hp1 hpn hk hpid hfirst
    rw [key s p k hs hp1 hpn hk hpid hfirst]
    exact ⟨rfl, rfl, rfl, entries_shiftDown jobs n k hle (by omega)⟩
  · intro s p hs hp1 hpn hfirst
    rw [key s p (p - 1) hs hp1 hpn (le_refl _) rfl hfirst]
    exact ⟨rfl, rfl, entries_shiftDown jobs n (p - 1) hle (by omega)⟩

/-- Witness for C4: `fg 2` on the sample table removes the second job. -/
theorem runFg_removes_first_with_pid_witness :
    (runFg decimalAtoi sampleJobs 3 (some "2".toList)).res.ret = 0 ∧
    (runFg decimalAtoi sampleJobs 3 (some "2".toList)).res.jobCount = 3 - 1 ∧
    entries (runFg decimalAtoi sampleJobs 3 (some "2".toList)).res.jobs (3 - 1)
      = (entries sampleJobs 3).eraseIdx (2 - 1) :=
  (runFg_removes_first_with_pid decimalAtoi sampleJobs 3 (by decide) (by decide)).2.2.2
    "2".toList 2 (by decide) (by decide) (by decide) (by decide)

/-- C4 as stated fails: with the same pid at positions 1 and 2, `fg 2` returns 0 but
removes the entry at position 1, so the entry left is the one that was at position 2 and
not the one that was at position 1. -/
theorem runFg_duplicate_pid_counterexample :
    dupJobs.length = MAX_JOBS ∧ decimalAtoi "2".toList = 2 ∧
    (runFg decimalAtoi dupJobs 2 (some "2".toList)).res.ret = 0 ∧
    entries (runFg decimalAtoi dupJobs 2 (some "2".toList)).res.jobs (2 - 1)
      ≠ (entries dupJobs 2).eraseIdx (2 - 1) ∧
    entries (runFg decimalAtoi dupJobs 2 (some "2".toList)).res.jobs (2 - 1)
      = (entries dupJobs 2).eraseIdx 0 := by
  decide

/-! ## Facts about the tokenizer -/

theorem splitOnP_strsep (l : List Char) :
    l.splitOnP isDelim = (strsep l).1 :: piecesOf (strsep l).2 := by
  induction l with
  | nil => rfl
  | cons c cs ih =>
    rw [List.splitOnP_cons, strsep]
    by_cases hc : isDelim c = true
    · rw [if_pos hc, if_pos hc]; rfl
    · rw [if_neg hc, if_neg hc, ih]; rfl

theorem strsep_rest_length (l r : List Char) (h : (strsep l).2 = some r) :
    r.length < l.length := by
  induction l with
  | nil => simp [strsep] at h
  | cons c cs ih =>
    rw [strsep] at h
    by_cases hc : isDelim c = true
    · rw [if_pos hc] at h
      simp only [Option.some.injEq] at h
      subst h; simp
    · rw [if_neg hc] at h
      have := ih h
      simp only [List.length_cons]; omega

theorem trimControl_gt (t : List Char) : ∀ c ∈ trimControl t, 32 < c.toNat := by
  induction t with
  | nil => intro c hc; simp [trimControl] at hc
  | cons a as ih =>
    intro c hc
    rw [trimControl] at hc
    by_cases ha : a.toNat ≤ 32
    · rw [if_pos ha] at hc; simp at hc
    · rw [if_neg ha] at hc
      rcases List.mem_cons.mp hc with h | h
      · rw [h]; omega
      · exact ih c h

theorem trimControl_eq_self (t : List Char) (h : ∀ c ∈ t, 32 < c.toNat) :
    trimControl t = t := by
  induction t with
  | nil => rfl
  | cons a as ih =>
    rw [trimControl, if_neg (by have := h a (List.mem_cons_self _ _); omega),
      ih (fun c hc => h c (List.mem_cons_of_mem _ hc))]

theorem strlen_trimControl (t : List Char) : strlen (trimControl t) = (trimControl t).length := by
  rw [strlen, cstr_of_no_NUL]
  intro h
  have := trimControl_gt t NUL h
  revert this; decide

theorem storedFrom_some (l : List Char) :
    storedFrom (some l)
      = (if trimControl (strsep l).1 ≠ [] then [trimControl (strsep l).1] else [])
        ++ storedFrom (strsep l).2 := by
  unfold storedFrom
  rw [show piecesOf (some l) = l.splitOnP isDelim from rfl, splitOnP_strsep, List.map_cons,
    List.filter_cons]
  by_cases h : trimControl (strsep l).1 = []
  · simp [h]
  · simp [h]

theorem getcmdLoop_spec :
    ∀ (fuel : Nat) (line : Option (List Char)) (i : Nat) (stores : List (Nat × List Char)),
      (∀ l, line = some l → l.length < fuel) →
      getcmdLoop fuel line i stores
        = some (i + (storedFrom line).length, stores ++ (storedFrom line).enumFrom i) := by
  intro fuel
  induction fuel with
  | zero =>
    intro line i stores h
    cases line with
    | none => simp [getcmdLoop, storedFrom, piecesOf]
    | some l => exact absurd (h l rfl) (Nat.not_lt_zero _)
  | succ fuel ih =>
    intro line i stores h
    cases line with
    | none => simp [getcmdLoop, storedFrom, piecesOf]
    | some l =>
      have hrest : ∀ r, (strsep l).2 = some r → r.length < fuel := by
        intro r hr
        have := strsep_rest_length l r hr
        have := h l rfl
        omega
      rw [getcmdLoop, storedFrom_some]
      simp only [strlen_trimControl]
      by_cases ht : trimControl (strsep l).1 = []
      · rw [if_neg (by simp [ht]), ih _ _ _ hrest]
        simp [ht]
      · have hpos : (trimControl (strsep l).1).length > 0 := List.length_pos.mpr ht
        rw [if_pos hpos, ih _ _ _ hrest]
        simp [ht, List.enumFrom_cons]
        omega

theorem splitOnP_piece_mem (p : Char → Bool) :
    ∀ (l : List Char), ∀ w ∈ l.splitOnP p, ∀ c ∈ w, p c = false ∧ c ∈ l := by
  intro l
  induction l with
  | nil => intro w hw c hc; simp [List.splitOnP_nil] at hw; subst hw; simp at hc
  | cons a as ih =>
    intro w hw c hc
    rw [List.splitOnP_cons] at hw
    by_cases ha : p a = true
    · rw [if_pos ha] at hw
      rcases List.mem_cons.mp hw with h | h
      · subst h; simp at hc
      · exact ⟨(ih w h c hc).1, List.mem_cons_of_mem _ (ih w h c hc).2⟩
    · rw [if_neg ha] at hw
      cases hsp : as.splitOnP p with
      | nil => exact absurd hsp (List.splitOnP_ne_nil p as)
      | cons w0 ws =>
        rw [hsp, List.modifyHead_cons] at hw
        rcases List.mem_cons.mp hw with h | h
        · subst h
          rcases List.mem_cons.mp hc with h2 | h2
          · subst h2; exact ⟨by simpa using ha, List.mem_cons_self _ _⟩
          · have := ih w0 (by rw [hsp]; exact List.mem_cons_self _ _) c h2
            exact ⟨this.1, List.mem_cons_of_mem _ this.2⟩
        · have := ih w (by rw [hsp]; exact List.mem_cons_of_mem _ h) c hc
          exact ⟨this.1, List.mem_cons_of_mem _ this.2⟩

theorem storedFrom_eq_wordsOf (l : List Char)
    (h : ∀ c ∈ l, isDelim c = true ∨ 32 < c.toNat) :
    storedFrom (some l) = wordsOf isDelim l := by
  unfold storedFrom wordsOf
  rw [show piecesOf (some l) = l.splitOnP isDelim from rfl]
  congr 1
  have : ∀ w ∈ l.splitOnP isDelim, trimControl w = id w := by
    intro w hw
    apply trimControl_eq_self
    intro c hc
    obtain ⟨h1, h2⟩ := splitOnP_piece_mem isDelim l w hw c hc
    rcases h c h2 with h3 | h3
    · rw [h1] at h3; cases h3
    · exact h3
  rw [List.map_congr_left this, List.map_id]

theorem wordsOf_clean (l : List Char) :
    ∀ t ∈ wordsOf isDelim l,
      t ≠ [] ∧ (∀ c ∈ t, c ≠ ' ' ∧ c ≠ '\t' ∧ c ≠ '\n') ∧
        ∀ c ∈ t, c ∈ l := by
  intro t ht
  rw [wordsOf, List.mem_filter] at ht
  refine ⟨by simpa using ht.2, ?_, fun c hc => (splitOnP_piece_mem isDelim l t ht.1 c hc).2⟩
  intro c hc
  have := (splitOnP_piece_mem isDelim l t ht.1 c hc).1
  refine ⟨?_, ?_, ?_⟩ <;> (intro e; subst e; revert this; decide)

theorem blankFirstAmpersand_split (pre post : List Char) (h : '&' ∉ pre) :
    blankFirstAmpersand (pre ++ '&' :: post) = pre ++ ' ' :: post := by
  induction pre with
  | nil => simp [blankFirstAmpersand]
  | cons a as ih =>
    have ha : a ≠ '&' := fun e => h (e ▸ List.mem_cons_self _ _)
    rw [List.cons_append, blankFirstAmpersand, if_neg ha,
      ih (fun e => h (List.mem_cons_of_mem _ e))]
    rfl

theorem blankFirstAmpersand_none (l : List Char) (h : '&' ∉ l) :
    blankFirstAmpersand l = l := by
  induction l with
  | nil => rfl
  | cons a as ih =>
    have ha : a ≠ '&' := fun e => h (e ▸ List.mem_cons_self _ _)
    rw [blankFirstAmpersand, if_neg ha, ih (fun e => h (List.mem_cons_of_mem _ e))]

theorem blankFirstAmpersand_length (l : List Char) :
    (blankFirstAmpersand l).length = l.length := by
  induction l with
  | nil => rfl
  | cons a as ih =>
    rw [blankFirstAmpersand]
    split
    · simp
    · simp [ih]

theorem getcmd_eq (line : List Char) (hne : line ≠ []) (hnul : NUL ∉ line) :
    getcmd line = .returned (if '&' ∈ line then 1 else 0)
      (storedFrom (some (blankFirstAmpersand line))).enum
      (storedFrom (some (blankFirstAmpersand line))).length := by
  have hlen : ¬ line.length = 0 := fun e => hne (List.length_eq_zero.mp e)
  unfold getcmd
  rw [if_neg hlen, cstr_of_no_NUL line hnul]
  simp only
  rw [getcmdLoop_spec (line.length + 1) _ 0 []
    (fun l hl => by
      simp only [Option.some.injEq] at hl
      rw [← hl, blankFirstAmpersand_length]; omega)]
  simp [List.enum]

theorem set_mkArgs (pre : List (List Char)) (t : List Char) (h : pre.length < 20) :
    (mkArgs pre).set pre.length (some t) = mkArgs (pre ++ [t]) := by
  unfold mkArgs
  have h1 : (List.map some pre).length = pre.length := List.length_map _ _
  obtain ⟨m, hm⟩ : ∃ m, 20 - pre.length = m + 1 := ⟨20 - pre.length - 1, by omega⟩
  have hm2 : 20 - (pre ++ [t]).length = m := by simp; omega
  rw [hm, hm2, List.replicate_succ, ← h1, List.set_append_right _ _ (le_refl _)]
  simp

theorem storeArgs_enumFrom (toks : List (List Char)) :
    ∀ (pre : List (List Char)), pre.length + toks.length ≤ 20 →
      storeArgs (mkArgs pre) (toks.enumFrom pre.length) = some (mkArgs (pre ++ toks)) := by
  induction toks with
  | nil => intro pre _; simp [storeArgs]
  | cons t ts ih =>
    intro pre h
    simp only [List.length_cons] at h
    have hlen : (mkArgs pre).length = 20 := by simp [mkArgs]; omega
    rw [List.enumFrom_cons, storeArgs, if_pos (by omega), set_mkArgs pre t (by omega)]
    have := ih (pre ++ [t]) (by simp; omega)
    simp only [List.length_append, List.length_cons, List.length_nil, List.append_assoc,
      List.singleton_append] at this
    exact this

theorem storeArgs_enum (toks : List (List Char)) (h : toks.length ≤ 20) :
    storeArgs zeroArgs toks.enum = some (mkArgs toks) := by
  have := storeArgs_enumFrom toks [] (by simpa using h)
  simpa [mkArgs, zeroArgs, List.enum] using this

theorem lineChar_facts (c : Char) (h : lineChar c = true) :
    c ≠ NUL ∧ (isDelim c = true ∨ 32 < c.toNat) := by
  unfold lineChar at h
  simp only [Bool.or_eq_true, Bool.and_eq_true, decide_eq_true_eq] at h
  rcases h with (h | h) | h
  · subst h; exact ⟨by decide, Or.inl (by decide)⟩
  · subst h; exact ⟨by decide, Or.inl (by decide)⟩
  · refine ⟨?_, Or.inr (by omega)⟩
    intro e
    subst e
    have : NUL.toNat = 0 := by decide
    omega

/-- C7 (amended): for an input line made of printable ASCII characters, spaces and tabs
followed by a newline, whose tokens number at most 20, `getcmd` returns with the background
flag 1 if the line contains `&` and 0 otherwise, and the tokens it stores at the indices
0, 1, 2, ... of the zeroed array are, in order, the maximal runs of characters other than
space, tab and newline of the line in which only the first `&` is replaced by a space. The
count returned is the number of tokens; no token is empty or contains a space, a tab or a
newline; a token contains `&` only when the line holds a second `&`. -/
theorem getcmd_blanks_first_ampersand (body : List Char)
    (hbody : ∀ c ∈ body, lineChar c = true) :
    (∀ toks : List (List Char), '&' ∉ body → toks = wordsOf isDelim (body ++ ['\n']) →
      toks.length ≤ 20 →
      getcmd (body ++ ['\n']) = .returned 0 toks.enum toks.length ∧
      storeArgs zeroArgs toks.enum = some (mkArgs toks) ∧
      ∀ t ∈ toks, t ≠ [] ∧
        ∀ c ∈ t, c ≠ ' ' ∧ c ≠ '\t' ∧ c ≠ '\n' ∧ c ≠ '&') ∧
    (∀ (pre post : List Char) (toks : List (List Char)), body = pre ++ '&' :: post →
      '&' ∉ pre → toks = wordsOf isDelim (pre ++ ' ' :: post ++ ['\n']) →
      toks.length ≤ 20 →
      getcmd (body ++ ['\n']) = .returned 1 toks.enum toks.length ∧
      storeArgs zeroArgs toks.enum = some (mkArgs toks) ∧
      ∀ t ∈ toks, t ≠ [] ∧
        ∀ c ∈ t, c ≠ ' ' ∧ c ≠ '\t' ∧ c ≠ '\n' ∧ ('&' ∉ post → c ≠ '&')) := by
  have hne : body ++ ['\n'] ≠ [] := by simp
  have hnul : NUL ∉ body ++ ['\n'] := by
    intro h
    rcases List.mem_append.mp h with h1 | h1
    · exact (lineChar_facts _ (hbody _ h1)).1 rfl
    · revert h1; decide
  have hget := getcmd_eq (body ++ ['\n']) hne hnul
  constructor
  · intro toks hamp htoks hlen
    have hamp2 : '&' ∉ body ++ ['\n'] := by
      intro h
      rcases List.mem_append.mp h with h1 | h1
      · exact hamp h1
      · revert h1; decide
    have hchars : ∀ c ∈ body ++ ['\n'], isDelim c = true ∨ 32 < c.toNat := by
      intro c hc
      rcases List.mem_append.mp hc with h1 | h1
      · exact (lineChar_facts _ (hbody _ h1)).2
      · simp only [List.mem_singleton] at h1; subst h1; exact Or.inl (by decide)
    rw [if_neg hamp2, blankFirstAmpersand_none _ hamp2, storedFrom_eq_wordsOf _ hchars,
      ← htoks] at hget
    refine ⟨hget, storeArgs_enum toks hlen, ?_⟩
    intro t ht
    rw [htoks] at ht
    obtain ⟨h1, h2, h3⟩ := wordsOf_clean _ t ht
    refine ⟨h1, fun c hc => ⟨(h2 c hc).1, (h2 c hc).2.1, (h2 c hc).2.2, ?_⟩⟩
    intro e
    exact hamp2 (e ▸ h3 c hc)
  · intro pre post toks hsplit hpre htoks hlen
    have hamp2 : '&' ∈ body ++ ['\n'] := by rw [hsplit]; simp
    have hblank : blankFirstAmpersand (body ++ ['\n']) = pre ++ ' ' :: post ++ ['\n'] := by
      rw [hsplit]
      have := blankFirstAmpersand_split pre (post ++ ['\n']) hpre
      simpa using this
    have hchars : ∀ c ∈ pre ++ ' ' :: post ++ ['\n'], isDelim c = true ∨ 32 < c.toNat := by
      intro c hc
      simp only [List.append_assoc, List.cons_append, List.mem_append, List.mem_cons,
        List.mem_singleton, List.not_mem_nil, or_false] at hc
      rcases hc with h1 | h1 | h1 | h1
      · exact (lineChar_facts _ (hbody _ (by rw [hsplit]; simp [h1]))).2
      · subst h1; exact Or.inl (by decide)
      · exact (lineChar_facts _ (hbody _ (by rw [hsplit]; simp [h1]))).2
      · subst h1; exact Or.inl (by decide)
    rw [if_pos hamp2, hblank, storedFrom_eq_wordsOf _ hchars, ← htoks] at hget
    refine ⟨hget, storeArgs_enum toks hlen, ?_⟩
    intro t ht
    rw [htoks] at ht
    obtain ⟨h1, h2, h3⟩ := wordsOf_clean _ t ht
    refine ⟨h1, fun c hc => ⟨(h2 c hc).1, (h2 c hc).2.1, (h2 c hc).2.2, ?_⟩⟩
    intro hpost e
    have hmem := h3 c hc
    rw [e] at hmem
    simp only [List.append_assoc, List.cons_append, List.mem_append, List.mem_cons,
      List.mem_singleton, List.not_mem_nil, or_false] at hmem
    rcases hmem with h4 | h4 | h4 | h4
    · exact hpre h4
    · revert h4; decide
    · exact hpost h4
    · revert h4; decide

/-- Witness for C7: the line `ls -l &`. -/
theorem getcmd_blanks_first_ampersand_witness :
    getcmd ("ls -l &".toList ++ ['\n'])
      = .returned 1 ["ls".toList, "-l".toList].enum ["ls".toList, "-l".toList].length ∧
    storeArgs zeroArgs ["ls".toList, "-l".toList].enum
      = some (mkArgs ["ls".toList, "-l".toList]) ∧
    ∀ t ∈ ["ls".toList, "-l".toList],
      t ≠ [] ∧
        ∀ c ∈ t, c ≠ ' ' ∧ c ≠ '\t' ∧ c ≠ '\n' ∧
          ('&' ∉ ([] : List Char) → c ≠ '&') :=
  (getcmd_blanks_first_ampersand "ls -l &".toList (by decide)).2 "ls -l ".toList []
    ["ls".toList, "-l".toList] (by decide) (by decide) (by decide) (by decide)

/-- C7 as stated fails: on the line `a&&b` only the first `&` is blanked, so the tokens
stored are `a` and `&b`, whereas the runs of characters other than white space and `&` are
`a` and `b`. -/
theorem getcmd_second_ampersand_counterexample :
    (∀ c ∈ "a&&b".toList, lineChar c = true) ∧
    getcmd ("a&&b".toList ++ ['\n'])
      = .returned 1 [(0, "a".toList), (1, "&b".toList)] 2 ∧
    wordsOf (fun c => isDelim c || c = '&') ("a&&b".toList ++ ['\n'])
      = ["a".toList, "b".toList] ∧
    '&' ∈ "&b".toList := by
  decide

/-- C9 fails on the code: on a line of 21 words `getcmd` performs 21 stores, the last of them
at index 20 of the 20-slot array, and returns 21. -/
theorem getcmd_stores_past_capacity :
    getcmd (manyWords 21)
      = .returned 0 (List.replicate 21 ['a']).enum 21 ∧
    (20, ['a']) ∈ (List.replicate 21 ['a']).enum ∧
    storeArgs zeroArgs (List.replicate 21 ['a']).enum = none := by
  decide

/-! ## Facts about redirection -/

theorem mkArgs_length (toks : List (List Char)) (h : toks.length ≤ 20) :
    (mkArgs toks).length = 20 := by
  simp [mkArgs]; omega

theorem getElem?_mkArgs (toks : List (List Char)) (h : toks.length ≤ 20) (t : Nat) :
    (mkArgs toks)[t]? = if t < 20 then some toks[t]? else none := by
  unfold mkArgs
  rw [List.getElem?_append, List.length_map, List.getElem?_map, List.getElem?_replicate]
  by_cases h1 : t < toks.length
  · rw [if_pos h1, if_pos (by omega), List.getElem?_eq_getElem h1]; rfl
  · rw [if_neg h1, List.getElem?_eq_none (by omega)]
    by_cases h2 : t < 20
    · rw [if_pos (by omega), if_pos h2]
    · rw [if_neg (by omega), if_neg h2]

theorem removeRedirectionLoop_spec :
    ∀ (fuel : Nat) (args : Args) (i m : Nat), i ≤ m → m + 2 ≤ args.length →
      (∀ t, i ≤ t → t < m → ∃ x, args[t]? = some (some x)) → args[m]? = some none →
      m - i < fuel →
      ∃ args2, removeRedirectionLoop fuel args i = some args2 ∧
        args2.length = args.length ∧
        ∀ t, args2[t]? = if i ≤ t ∧ t < m then args[t + 2]? else args[t]? := by
  intro fuel
  induction fuel with
  | zero => intro args i m _ _ _ _ h; omega
  | succ fuel ih =>
    intro args i m him hlen htok hend hfuel
    by_cases hi : i = m
    · subst hi
      refine ⟨args, ?_, rfl, fun t => by rw [if_neg (by omega)]⟩
      rw [removeRedirectionLoop, hend]
    · have hlt : i < m := by omega
      obtain ⟨x, hx⟩ := htok i (le_refl _) hlt
      obtain ⟨v, hv⟩ : ∃ v, args[i + 2]? = some v := by
        have hb : i + 2 < args.length := by omega
        exact ⟨args[i + 2], List.getElem?_eq_getElem hb⟩
      obtain ⟨args2, h2, hlen2, hpt⟩ := ih (args.set i v) (i + 1) m
        (by omega) (by simpa using hlen)
        (fun t ht1 ht2 => by
          rw [List.getElem?_set_ne (by omega)]; exact htok t (by omega) ht2)
        (by rw [List.getElem?_set_ne (by omega)]; exact hend) (by omega)
      refine ⟨args2, ?_, by simpa using hlen2, ?_⟩
      · rw [removeRedirectionLoop, hx]
        simp only [hv]
        exact h2
      · intro t
        rw [hpt t]
        by_cases h1 : i + 1 ≤ t ∧ t < m
        · rw [if_pos h1, if_pos (by omega), List.getElem?_set_ne (by omega)]
        · rw [if_neg h1]
          by_cases h3 : t = i
          · subst h3
            rw [if_pos (by omega), List.getElem?_set_self (by omega), hv]
          · rw [if_neg (by omega), List.getElem?_set_ne (by omega)]

theorem removeRedirection_mkArgs (pre rest : List (List Char))
    (hlen : (pre ++ rest).length ≤ 18) :
    removeRedirection (mkArgs (pre ++ rest)) pre.length
      = some (mkArgs (pre ++ rest.drop 2)) := by
  have hlen2 : (pre ++ rest.drop 2).length ≤ 20 := by
    simp only [List.length_append, List.length_drop] at hlen ⊢; omega
  have hl : (mkArgs (pre ++ rest)).length = 20 := mkArgs_length _ (by omega)
  obtain ⟨args2, h2, hl2, hpt⟩ := removeRedirectionLoop_spec
    ((mkArgs (pre ++ rest)).length + 1) (mkArgs (pre ++ rest)) pre.length (pre ++ rest).length
    (by simp) (by omega)
    (fun t _ ht2 => ⟨(pre ++ rest)[t], by
      rw [getElem?_mkArgs _ (by omega), if_pos (by omega), List.getElem?_eq_getElem ht2]⟩)
    (by rw [getElem?_mkArgs _ (by omega), if_pos (by omega), List.getElem?_eq_none (le_refl _)])
    (by omega)
  rw [removeRedirection, h2]
  congr 1
  apply List.ext_getElem?
  intro t
  rw [hpt t, getElem?_mkArgs _ hlen2, getElem?_mkArgs _ (by omega),
    getElem?_mkArgs _ (by omega)]
  simp only [List.length_append] at hlen ⊢
  by_cases h20 : t < 20
  · by_cases h1 : pre.length ≤ t ∧ t < pre.length + rest.length
    · have e1 : t + 2 < 20 := by omega
      have e2 : ¬ t + 2 < pre.length := by omega
      have e3 : ¬ t < pre.length := by omega
      have e4 : t + 2 - pre.length = 2 + (t - pre.length) := by omega
      simp only [if_pos h1, if_pos h20, if_pos e1, List.getElem?_append, if_neg e2, if_neg e3,
        List.getElem?_drop, e4]
    · simp only [if_neg h1, if_pos h20]
      by_cases h2 : t < pre.length
      · simp only [List.getElem?_append, if_pos h2]
      · rw [List.getElem?_eq_none (by simp; omega), List.getElem?_eq_none (by simp; omega)]
  · have e1 : ¬ t + 2 < 20 := by omega
    simp only [if_neg h20, if_neg e1, ite_self]

theorem getElem?_mkArgs_before (pre rest : List (List Char)) (h : (pre ++ rest).length ≤ 20)
    (t : Nat) (ht : t < pre.length) :
    ∃ x, x ∈ pre ∧ (mkArgs (pre ++ rest))[t]? = some (some x) := by
  refine ⟨pre[t], List.getElem_mem _, ?_⟩
  rw [getElem?_mkArgs _ h, if_pos (by simp at h; omega), List.getElem?_append, if_pos ht,
    List.getElem?_eq_getElem ht]

theorem getElem?_mkArgs_at (pre rest : List (List Char)) (h : (pre ++ rest).length ≤ 19)
    (k : Nat) (hk : k ≤ rest.length) :
    (mkArgs (pre ++ rest))[pre.length + k]? = some rest[k]? := by
  have h2 : (pre ++ rest).length = pre.length + rest.length := List.length_append _ _
  rw [getElem?_mkArgs _ (by omega), if_pos (by omega), List.getElem?_append,
    if_neg (by omega)]
  congr 2
  omega

theorem outputRedirectionLoop_skip (args : Args) :
    ∀ (d fuel i : Nat),
      (∀ t, i ≤ t → t < i + d →
        ∃ x, args[t]? = some (some x) ∧ x ≠ ">".toList ∧ x ≠ ">>".toList) →
      outputRedirectionLoop (fuel + d) args i = outputRedirectionLoop fuel args (i + d) := by
  intro d
  induction d with
  | zero => intro fuel i _; rfl
  | succ d ih =>
    intro fuel i h
    obtain ⟨x, hx, hx1, hx2⟩ := h i (le_refl _) (by omega)
    rw [show fuel + (d + 1) = (fuel + d) + 1 by omega, outputRedirectionLoop, hx]
    simp only [hx1, hx2, or_self, if_false]
    rw [ih fuel (i + 1) (fun t ht1 ht2 => h t (by omega) (by omega))]
    congr 1
    omega

theorem inputRedirectionLoop_skip (args : Args) :
    ∀ (d fuel i : Nat),
      (∀ t, i ≤ t → t < i + d → ∃ x, args[t]? = some (some x) ∧ x ≠ "<".toList) →
      inputRedirectionLoop (fuel + d) args i = inputRedirectionLoop fuel args (i + d) := by
  intro d
  induction d with
  | zero => intro fuel i _; rfl
  | succ d ih =>
    intro fuel i h
    obtain ⟨x, hx, hx1⟩ := h i (le_refl _) (by omega)
    rw [show fuel + (d + 1) = (fuel + d) + 1 by omega, inputRedirectionLoop, hx]
    simp only [hx1, if_false]
    rw [ih fuel (i + 1) (fun t ht1 ht2 => h t (by omega) (by omega))]
    congr 1
    omega

theorem outputRedirectionExists_skip (pre rest : List (List Char))
    (h : (pre ++ rest).length ≤ 19)
    (hpre : ∀ t ∈ pre, t ≠ ">".toList ∧ t ≠ ">>".toList) :
    outputRedirectionExists (mkArgs (pre ++ rest))
      = outputRedirectionLoop (20 - pre.length + 1) (mkArgs (pre ++ rest)) pre.length := by
  have h2 : (pre ++ rest).length = pre.length + rest.length := List.length_append _ _
  rw [outputRedirectionExists, mkArgs_length _ (by omega),
    show 20 + 1 = (20 - pre.length + 1) + pre.length by omega,
    outputRedirectionLoop_skip _ pre.length _ 0
      (fun t _ ht => by
        obtain ⟨x, hx, hxe⟩ := getElem?_mkArgs_before pre rest (by omega) t (by omega)
        exact ⟨x, hxe, hpre x hx⟩)]
  simp

theorem inputRedirectionExists_skip (pre rest : List (List Char))
    (h : (pre ++ rest).length ≤ 19) (hpre : ∀ t ∈ pre, t ≠ "<".toList) :
    inputRedirectionExists (mkArgs (pre ++ rest))
      = inputRedirectionLoop (20 - pre.length + 1) (mkArgs (pre ++ rest)) pre.length := by
  have h2 : (pre ++ rest).length = pre.length + rest.length := List.length_append _ _
  rw [inputRedirectionExists, mkArgs_length _ (by omega),
    show 20 + 1 = (20 - pre.length + 1) + pre.length by omega,
    inputRedirectionLoop_skip _ pre.length _ 0
      (fun t _ ht => by
        obtain ⟨x, hx, hxe⟩ := getElem?_mkArgs_before pre rest (by omega) t (by omega)
        exact ⟨x, hxe, hpre x hx⟩)]
  simp

/-- C5 (amended): on an end-marker-terminated argument array, `outputRedirectionExists`
(operators `>` and `>>`) and `inputRedirectionExists` (operator `<`) return `NULL` and leave
the array unchanged when no token equals the operator. When the array holds at most 18
tokens and the first token equal to the operator, at index `i`, is followed by another
token, the result carries the matched operator token (for input, only the file name) and
the token at index `i + 1` as the file name, and the array afterwards holds the original
tokens without the two at indices `i` and `i + 1`, in their order, followed by end
markers. -/
theorem redirection_removes_operator_and_file (toks : List (List Char)) :
    (toks.length ≤ 19 → (∀ t ∈ toks, t ≠ ">".toList ∧ t ≠ ">>".toList) →
      outputRedirectionExists (mkArgs toks) = some (none, mkArgs toks)) ∧
    (toks.length ≤ 19 → (∀ t ∈ toks, t ≠ "<".toList) →
      inputRedirectionExists (mkArgs toks) = some (none, mkArgs toks)) ∧
    (∀ (pre : List (List Char)) (op file : List Char) (post : List (List Char)),
      toks = pre ++ op :: file :: post → toks.length ≤ 18 →
      (op = ">".toList ∨ op = ">>".toList) →
      (∀ t ∈ pre, t ≠ ">".toList ∧ t ≠ ">>".toList) →
      outputRedirectionExists (mkArgs toks)
        = some (some (op, some file), mkArgs (pre ++ post))) ∧
    (∀ (pre : List (List Char)) (file : List Char) (post : List (List Char)),
      toks = pre ++ "<".toList :: file :: post → toks.length ≤ 18 →
      (∀ t ∈ pre, t ≠ "<".toList) →
      inputRedirectionExists (mkArgs toks) = some (some file, mkArgs (pre ++ post))) := by
  refine ⟨?_, ?_, ?_, ?_⟩
  · intro hlen hno
    have h := outputRedirectionExists_skip toks [] (by simpa using hlen) hno
    have hend := getElem?_mkArgs_at toks [] (by simpa using hlen) 0 (le_refl _)
    simp only [List.append_nil, Nat.add_zero] at h hend
    rw [h, outputRedirectionLoop, hend]
    rfl
  · intro hlen hno
    have h := inputRedirectionExists_skip toks [] (by simpa using hlen) hno
    have hend := getElem?_mkArgs_at toks [] (by simpa using hlen) 0 (le_refl _)
    simp only [List.append_nil, Nat.add_zero] at h hend
    rw [h, inputRedirectionLoop, hend]
    rfl
  · intro pre op file post htoks hlen hop hpre
    subst htoks
    have h0 := getElem?_mkArgs_at pre (op :: file :: post) (by omega) 0 (by simp)
    have h1 := getElem?_mkArgs_at pre (op :: file :: post) (by omega) 1 (by simp)
    have hrm := removeRedirection_mkArgs pre (op :: file :: post) hlen
    simp only [Nat.add_zero, List.getElem?_cons_zero, List.getElem?_cons_succ,
      List.drop_succ_cons, List.drop_zero] at h0 h1 hrm
    rw [outputRedirectionExists_skip pre _ (by omega) hpre, outputRedirectionLoop, h0]
    simp only [if_pos hop, h1, hrm]
    rfl
  · intro pre file post htoks hlen hpre
    subst htoks
    have h0 := getElem?_mkArgs_at pre ("<".toList :: file :: post) (by omega) 0 (by simp)
    have h1 := getElem?_mkArgs_at pre ("<".toList :: file :: post) (by omega) 1 (by simp)
    have hrm := removeRedirection_mkArgs pre ("<".toList :: file :: post) hlen
    simp only [Nat.add_zero, List.getElem?_cons_zero, List.getElem?_cons_succ,
      List.drop_succ_cons, List.drop_zero] at h0 h1 hrm
    rw [inputRedirectionExists_skip pre _ (by omega) hpre, inputRedirectionLoop, h0]
    simp only [if_true, h1, hrm]
    rfl

/-- Witness for C5: `cat < in.txt > out.txt` yields the output request `>` with `out.txt`,
then the input file name `in.txt`, and leaves the array with the single token `cat`. -/
theorem redirection_removes_operator_and_file_witness :
    outputRedirectionExists (mkArgs (words ["cat", "<", "in.txt", ">", "out.txt"]))
      = some (some (">".toList, some "out.txt".toList),
          mkArgs (words ["cat", "<", "in.txt"] ++ [])) ∧
    inputRedirectionExists (mkArgs (words ["cat", "<", "in.txt"]))
      = some (some "in.txt".toList, mkArgs (words ["cat"] ++ [])) :=
  ⟨(redirection_removes_operator_and_file (words ["cat", "<", "in.txt", ">", "out.txt"])).2.2.1
      (words ["cat", "<", "in.txt"]) ">".toList "out.txt".toList [] (by decide) (by decide)
      (by decide) (by decide),
   (redirection_removes_operator_and_file (words ["cat", "<", "in.txt"])).2.2.2
      (words ["cat"]) "in.txt".toList [] (by decide) (by decide) (by decide)⟩

/-- C5 as stated fails. On `cat <` the array holds a token equal to `<`, yet
`inputRedirectionExists` returns `NULL` and the array is changed, with one token removed.
On an array of 19 tokens that ends in `> f`, `removeRedirection` reads `args[20]`, outside
the array. -/
theorem redirection_trailing_operator_counterexample :
    "<".toList ∈ words ["cat", "<"] ∧
    inputRedirectionExists (mkArgs (words ["cat", "<"])) = some (none, mkArgs (words ["cat"])) ∧
    mkArgs (words ["cat"]) ≠ mkArgs (words ["cat", "<"]) ∧
    (List.replicate 17 ['a'] ++ words [">", "f"]).length = 19 ∧
    outputRedirectionExists (mkArgs (List.replicate 17 ['a'] ++ words [">", "f"])) = none := by
  decide

/-! ## Facts about the pipe -/

theorem set_zeroArgs_eq : zeroArgs = mkArgs [] := rfl

theorem leftArgsLoop_spec (args : Args) :
    ∀ (done todo : List (List Char)) (fuel : Nat),
      (∀ k, k < todo.length → args[done.length + k]? = some (some (todo[k]?.getD []))) →
      (∀ t ∈ todo, t ≠ "|".toList) →
      args[done.length + todo.length]? = some (some "|".toList) →
      done.length + todo.length < 20 → todo.length < fuel →
      leftArgsLoop fuel args done.length (mkArgs done) = some (mkArgs (done ++ todo)) := by
  intro done todo
  induction todo generalizing done with
  | nil =>
    intro fuel _ _ hend _ hfuel
    obtain ⟨f, rfl⟩ : ∃ f, fuel = f + 1 := ⟨fuel - 1, by simp at hfuel; omega⟩
    simp only [List.length_nil, Nat.add_zero] at hend
    rw [leftArgsLoop, hend]
    simp
  | cons t ts ih =>
    intro fuel hget hne hend hlen hfuel
    simp only [List.length_cons] at hend hlen hfuel
    obtain ⟨f, rfl⟩ : ∃ f, fuel = f + 1 := ⟨fuel - 1, by omega⟩
    have h0 := hget 0 (by simp)
    simp only [Nat.add_zero, List.getElem?_cons_zero, Option.getD_some] at h0
    have hne0 : t ≠ "|".toList := hne t (List.mem_cons_self _ _)
    rw [leftArgsLoop, h0]
    simp only [ne_eq, hne0, not_false_eq_true, if_true]
    rw [if_pos (by rw [mkArgs_length _ (by omega)]; omega), set_mkArgs done t (by omega)]
    have := ih (done ++ [t]) f
      (fun k hk => by
        have := hget (k + 1) (by simp; omega)
        simp only [List.getElem?_cons_succ] at this
        rw [← this]; congr 1; simp; omega)
      (fun x hx => hne x (List.mem_cons_of_mem _ hx))
      (by rw [← hend]; congr 1; simp; omega)
      (by simp; omega) (by omega)
    simp only [List.length_append, List.length_cons, List.length_nil, List.append_assoc,
      List.singleton_append] at this
    exact this

theorem skipLeftLoop_spec (args : Args) :
    ∀ (d fuel i : Nat),
      (∀ t, i ≤ t → t < i + d → ∃ x, args[t]? = some (some x) ∧ x ≠ "|".toList) →
      args[i + d]? = some (some "|".toList) → d < fuel →
      skipLeftLoop fuel args i = some (i + d) := by
  intro d
  induction d with
  | zero =>
    intro fuel i _ hend hfuel
    obtain ⟨f, rfl⟩ : ∃ f, fuel = f + 1 := ⟨fuel - 1, by omega⟩
    simp only [Nat.add_zero] at hend
    rw [skipLeftLoop, hend]
    simp
  | succ d ih =>
    intro fuel i h hend hfuel
    obtain ⟨f, rfl⟩ : ∃ f, fuel = f + 1 := ⟨fuel - 1, by omega⟩
    obtain ⟨x, hx, hx1⟩ := h i (le_refl _) (by omega)
    rw [skipLeftLoop, hx]
    simp only [ne_eq, hx1, not_false_eq_true, if_true]
    rw [ih f (i + 1) (fun t ht1 ht2 => h t (by omega) (by omega))
      (by rw [← hend]; congr 1; omega) (by omega)]
    congr 1
    omega

theorem rightArgsLoop_spec (args : Args) :
    ∀ (todo done : List (List Char)) (fuel i : Nat),
      (∀ k, k < todo.length → args[i + k]? = some (some (todo[k]?.getD []))) →
      args[i + todo.length]? = some none →
      done.length + todo.length ≤ 20 → todo.length < fuel →
      rightArgsLoop fuel args i done.length (mkArgs done) = some (mkArgs (done ++ todo)) := by
  intro todo
  induction todo with
  | nil =>
    intro done fuel i _ hend _ hfuel
    obtain ⟨f, rfl⟩ : ∃ f, fuel = f + 1 := ⟨fuel - 1, by simp at hfuel; omega⟩
    simp only [List.length_nil, Nat.add_zero] at hend
    rw [rightArgsLoop, hend]
    simp
  | cons t ts ih =>
    intro done fuel i hget hend hlen hfuel
    simp only [List.length_cons] at hend hlen hfuel
    obtain ⟨f, rfl⟩ : ∃ f, fuel = f + 1 := ⟨fuel - 1, by omega⟩
    have h0 := hget 0 (by simp)
    simp only [Nat.add_zero, List.getElem?_cons_zero, Option.getD_some] at h0
    rw [rightArgsLoop, h0]
    simp only
    rw [if_pos (by rw [mkArgs_length _ (by omega)]; omega), set_mkArgs done t (by omega)]
    have := ih (done ++ [t]) f (i + 1)
      (fun k hk => by
        have := hget (k + 1) (by simp; omega)
        simp only [List.getElem?_cons_succ] at this
        rw [← this]; congr 1; omega)
      (by rw [← hend]; congr 1; omega)
      (by simp; omega) (by omega)
    simp only [List.length_append, List.length_cons, List.length_nil, List.append_assoc,
      List.singleton_append] at this
    exact this

theorem split_at_first (a : List Char) (toks : List (List Char)) (h : a ∈ toks) :
    ∃ l r, toks = l ++ a :: r ∧ a ∉ l ∧ l = toks.takeWhile (fun t => t ≠ a) ∧
      r = (toks.dropWhile (fun t => t ≠ a)).drop 1 := by
  induction toks with
  | nil => cases h
  | cons t ts ih =>
    by_cases ht : t = a
    · subst ht
      exact ⟨[], ts, rfl, by simp, by simp [List.takeWhile], by simp [List.dropWhile]⟩
    · have hmem : a ∈ ts := by
        rcases List.mem_cons.mp h with h1 | h1
        · exact absurd h1.symm ht
        · exact h1
      obtain ⟨l, r, h1, h2, h3, h4⟩ := ih hmem
      refine ⟨t :: l, r, by rw [h1]; rfl, ?_, ?_, ?_⟩
      · intro hm
        rcases List.mem_cons.mp hm with h5 | h5
        · exact ht h5.symm
        · exact h2 h5
      · rw [List.takeWhile_cons, if_pos (by simpa using ht), ← h3]
      · rw [List.dropWhile_cons, if_pos (by simpa using ht), ← h4]

/-- C6: for every end-marker-terminated argument array that contains a `|` token, the
arrays `left_args` and `right_args` built in `handlePipe` hold, followed by end markers,
the tokens before the first `|` (none of them is `|`) and all the tokens after the first
`|` in order (a later `|` stays in `right_args`), and the left tokens, `|`, and the right
tokens together are the original tokens. -/
theorem handlePipe_splits_at_first_pipe (toks : List (List Char)) (hlen : toks.length ≤ 19)
    (hpipe : "|".toList ∈ toks) :
    ∃ left right : List (List Char),
      left = toks.takeWhile (fun t => t ≠ "|".toList) ∧
      right = (toks.dropWhile (fun t => t ≠ "|".toList)).drop 1 ∧
      "|".toList ∉ left ∧
      left ++ ["|".toList] ++ right = toks ∧
      handlePipeLeftArgs (mkArgs toks) = some (mkArgs left) ∧
      handlePipeRightArgs (mkArgs toks) = some (mkArgs right) ∧
      (mkArgs left)[left.length]? = some none ∧
      (mkArgs right)[right.length]? = some none := by
  obtain ⟨left, right, hsplit, hno, hl, hr⟩ := split_at_first "|".toList toks hpipe
  have hlen2 : left.length + (right.length + 1) ≤ 19 := by
    rw [hsplit] at hlen; simpa using hlen
  have hargs : ∀ k, k ≤ ("|".toList :: right).length →
      (mkArgs toks)[left.length + k]? = some ("|".toList :: right)[k]? := by
    intro k hk
    rw [hsplit]
    exact getElem?_mkArgs_at left _ (by rw [← hsplit]; exact hlen) k hk
  have hpre : ∀ t, t < left.length →
      ∃ x, x ∈ left ∧ (mkArgs toks)[t]? = some (some x) ∧ (left[t]?.getD []) = x := by
    intro t ht
    refine ⟨left[t], List.getElem_mem _, ?_, by simp [List.getElem?_eq_getElem ht]⟩
    rw [hsplit, getElem?_mkArgs _ (by rw [← hsplit]; omega), if_pos (by omega),
      List.getElem?_append, if_pos ht, List.getElem?_eq_getElem ht]
  have hbar : (mkArgs toks)[left.length]? = some (some "|".toList) := by
    have := hargs 0 (by simp)
    simpa using this
  refine ⟨left, right, hl, hr, hno, by rw [hsplit]; simp, ?_, ?_, ?_, ?_⟩
  · have := leftArgsLoop_spec (mkArgs toks) [] left ((mkArgs toks).length + 1)
      (fun k hk => by
        obtain ⟨x, _, hx, hxe⟩ := hpre k hk
        simp only [List.length_nil, Nat.zero_add]
        rw [hx, hxe])
      (fun t ht e => hno (e ▸ ht))
      (by simpa using hbar) (by simp; omega)
      (by rw [mkArgs_length _ (by omega)]; omega)
    simpa [handlePipeLeftArgs, set_zeroArgs_eq] using this
  · have hskip := skipLeftLoop_spec (mkArgs toks) left.length ((mkArgs toks).length + 1) 0
      (fun t _ ht => by
        obtain ⟨x, hxm, hx, _⟩ := hpre t (by omega)
        exact ⟨x, hx, fun e => hno (e ▸ hxm)⟩)
      (by simpa using hbar) (by rw [mkArgs_length _ (by omega)]; omega)
    have hcopy := rightArgsLoop_spec (mkArgs toks) right [] ((mkArgs toks).length + 1)
      (left.length + 1)
      (fun k hk => by
        have := hargs (k + 1) (by simp; omega)
        simp only [List.getElem?_cons_succ] at this
        rw [show left.length + 1 + k = left.length + (k + 1) by omega, this,
          List.getElem?_eq_getElem hk]
        rfl)
      (by
        have := hargs (right.length + 1) (by simp)
        simp only [List.getElem?_cons_succ] at this
        rw [show left.length + 1 + right.length = left.length + (right.length + 1) by omega,
          this, List.getElem?_eq_none (le_refl _)])
      (by simp; omega) (by rw [mkArgs_length _ (by omega)]; omega)
    simp only [Nat.zero_add] at hskip
    rw [handlePipeRightArgs, hskip]
    simpa [set_zeroArgs_eq] using hcopy
  · rw [getElem?_mkArgs _ (by omega), if_pos (by omega), List.getElem?_eq_none (le_refl _)]
  · rw [getElem?_mkArgs _ (by omega), if_pos (by omega), List.getElem?_eq_none (le_refl _)]

/-- Witness for C6: `ls -l | wc | x` is split into `ls -l` and `wc | x`. -/
theorem handlePipe_splits_at_first_pipe_witness :
    ∃ left right : List (List Char),
      left = (words ["ls", "-l", "|", "wc", "|", "x"]).takeWhile (fun t => t ≠ "|".toList) ∧
      right
        = ((words ["ls", "-l", "|", "wc", "|", "x"]).dropWhile
            (fun t => t ≠ "|".toList)).drop 1 ∧
      "|".toList ∉ left ∧
      left ++ ["|".toList] ++ right = words ["ls", "-l", "|", "wc", "|", "x"] ∧
      handlePipeLeftArgs (mkArgs (words ["ls", "-l", "|", "wc", "|", "x"]))
        = some (mkArgs left) ∧
      handlePipeRightArgs (mkArgs (words ["ls", "-l", "|", "wc", "|", "x"]))
        = some (mkArgs right) ∧
      (mkArgs left)[left.length]? = some none ∧
      (mkArgs right)[right.length]? = some none :=
  handlePipe_splits_at_first_pipe (words ["ls", "-l", "|", "wc", "|", "x"]) (by decide)
    (by decide)

/-! ## Facts about the main loop -/

/-- C8 (amended): in the parent branch of the dispatch of an external command with the
background flag set, whenever registering the child fails (the table already holds 15 jobs,
or the label `args[0]` has `strlen` at least 100), `addJob` reports the failure and returns
-1 with the job array and the count as they were, `main` reports `Error while adding job`,
and the shell process exits with status -1. -/
theorem parentBranch_exits_when_addJob_fails (jobs : List Job) (n : Nat)
    (reported : List String) (args : Args) (bg pid : Int) (label : List Char)
    (hbg : bg ≠ 0) (hlabel : args[0]? = some (some label))
    (hfail : n = MAX_JOBS ∨ strlen label ≥ COMMAND_LENGTH) :
    ∃ msg, addJob jobs n pid (some label) = some ⟨-1, jobs, n, [msg]⟩ ∧
      parentBranch jobs n reported args bg pid
        = .exits (-1) (reported ++ [msg] ++ ["Error while adding job"]) := by
  have hadd : ∃ msg, addJob jobs n pid (some label) = some ⟨-1, jobs, n, [msg]⟩ := by
    unfold addJob
    by_cases h1 : n = MAX_JOBS
    · exact ⟨"Max job limit reached\n", by rw [if_pos h1]⟩
    · have h2 : strlen label ≥ COMMAND_LENGTH := hfail.resolve_left h1
      exact ⟨"Command entered is too long\n", by rw [if_neg h1]; simp only [if_pos h2]⟩
  obtain ⟨msg, hmsg⟩ := hadd
  refine ⟨msg, hmsg, ?_⟩
  unfold parentBranch
  rw [if_neg hbg, hlabel]
  simp only [hmsg]
  rfl

/-- Witness for C8: a background command submitted while the table holds 15 jobs. -/
theorem parentBranch_exits_when_addJob_fails_witness :
    ∃ msg, addJob fullJobs 15 4242 (some "sleep".toList) = some ⟨-1, fullJobs, 15, [msg]⟩ ∧
      parentBranch fullJobs 15 [] (mkArgs (words ["sleep", "100"])) 1 4242
        = .exits (-1) ([] ++ [msg] ++ ["Error while adding job"]) :=
  parentBranch_exits_when_addJob_fails fullJobs 15 [] (mkArgs (words ["sleep", "100"])) 1 4242
    "sleep".toList (by decide) (by decide) (by decide)

/-- C8 as stated fails: with 15 jobs in the table, the iteration of `main` that reads
`sleep 100 &` in the parent (`fork` returns 4242) does not go on to the next iteration: the
process exits with status -1. -/
theorem main_full_table_counterexample :
    mainStep (quietSys 4242 0 0) fullJobs 15 "sleep 100 &\n".toList
      = .exits (-1) ["Max job limit reached\n", "Error while adding job"] := by
  decide

/-- C10 fails on the code: in the child (`fork` returns 0) of the iteration of `main` that
reads `ls | wc`, once `handlePipe` has returned (its `pipe` call succeeds and its two `fork`
calls return the pids 11 and 12), the process does not exit: it goes on to the next
iteration of the loop with its copy of the job table. -/
theorem main_pipe_child_continues :
    handlePipe (quietSys 0 11 12) (mkArgs (words ["ls", "|", "wc"])) = .returns ∧
    mainStep (quietSys 0 11 12) sampleJobs 3 "ls | wc\n".toList
      = .continues sampleJobs 3 [] := by
  decide

end SimpleShell
